import Mathlib

/-!
Verification of the ArduinoPingMonitor sketch (DhcpPingMonitor.ino, two
revisions).  The repository stores per-target ping outcomes in bit-packed
byte arrays addressed through a rolling write cursor, and reports rolling
loss averages.  This file embeds the data model and operations of the
sketch shallowly in Lean: byte arrays become functions from byte index to
byte value, machine integers become naturals (with `% 256` where a store
truncates to a byte), and the division that C leaves undefined on a zero
denominator is modelled by `Option` (`none` exactly when the C code would
divide by zero).
-/

namespace PingMonitor

/-- Bit-mask table for get/set bit access functions, from the source's
`BIT_MASK[8]` array (entries `0b1 …` through `0b10000000`).  Indices outside
`0..7` never occur, since the callers index with `pos % 8`. -/
def BIT_MASK (b : ℕ) : ℕ :=
  match b with
  | 0 => 1
  | 1 => 2
  | 2 => 4
  | 3 => 8
  | 4 => 16
  | 5 => 32
  | 6 => 64
  | 7 => 128
  | _ => 0

/-- Embedding of `setBool(byte data[], int pos, boolean value)`:
`byte_pos = pos/8`, `bit_pos = pos%8`; on `value` the byte is OR-ed with
the mask, otherwise AND-ed with its complement.  The store truncates to a
byte (`% 256`), as the C array cell is a `byte`; the C complement `~mask`
is taken at `int` width, but after the byte truncation this agrees with
`255 ^^^ mask`. -/
def setBool (data : ℕ → ℕ) (pos : ℕ) (value : Bool) : ℕ → ℕ :=
  if value then
    Function.update data (pos / 8) ((data (pos / 8) ||| BIT_MASK (pos % 8)) % 256)
  else
    Function.update data (pos / 8) ((data (pos / 8) &&& (255 ^^^ BIT_MASK (pos % 8))) % 256)

/-- Embedding of `getBool(byte data[], int pos)`: reads
`data[pos/8] & BIT_MASK[pos%8]` and converts to `boolean`
(nonzero means true). -/
def getBool (data : ℕ → ℕ) (pos : ℕ) : Bool :=
  decide ((data (pos / 8) &&& BIT_MASK (pos % 8)) ≠ 0)

lemma BIT_MASK_eq_two_pow {b : ℕ} (h : b < 8) : BIT_MASK b = 2 ^ b := by
  interval_cases b <;> rfl

lemma getBool_eq_testBit (data : ℕ → ℕ) (pos : ℕ) :
    getBool data pos = (data (pos / 8)).testBit (pos % 8) := by
  unfold getBool
  rw [BIT_MASK_eq_two_pow (Nat.mod_lt _ (by norm_num)), Nat.and_two_pow]
  cases h : (data (pos / 8)).testBit (pos % 8) <;>
    simp [h, (Nat.two_pow_pos (pos % 8)).ne']

lemma setBool_true (data : ℕ → ℕ) (pos : ℕ) :
    setBool data pos true =
      Function.update data (pos / 8) ((data (pos / 8) ||| BIT_MASK (pos % 8)) % 256) := by
  simp [setBool]

lemma setBool_false (data : ℕ → ℕ) (pos : ℕ) :
    setBool data pos false =
      Function.update data (pos / 8)
        ((data (pos / 8) &&& (255 ^^^ BIT_MASK (pos % 8))) % 256) := by
  simp [setBool]

lemma testBit_complement_mask {b i : ℕ} (hb : b < 8) (hi : i < 8) :
    (255 ^^^ BIT_MASK b).testBit i = decide (i ≠ b) := by
  rw [BIT_MASK_eq_two_pow hb, (by norm_num : (255 : ℕ) = 2 ^ 8 - 1),
    Nat.testBit_xor, Nat.testBit_two_pow_sub_one, Nat.testBit_two_pow]
  rcases eq_or_ne i b with h | h
  · subst h
    simp [hi]
  · simp [hi, h, Ne.symm h]

lemma testBit_mod_256 (x i : ℕ) (hi : i < 8) : (x % 256).testBit i = x.testBit i := by
  rw [(by norm_num : (256 : ℕ) = 2 ^ 8), Nat.testBit_mod_two_pow, decide_eq_true hi,
    Bool.true_and]

/-- Round trip: reading back the position just written returns the value
written. -/
lemma getBool_setBool_same (data : ℕ → ℕ) (pos : ℕ) (v : Bool) :
    getBool (setBool data pos v) pos = v := by
  have hb : pos % 8 < 8 := Nat.mod_lt _ (by norm_num)
  rw [getBool_eq_testBit]
  cases v with
  | true =>
    rw [setBool_true, Function.update_same, testBit_mod_256 _ _ hb, Nat.testBit_or,
      BIT_MASK_eq_two_pow hb, Nat.testBit_two_pow_self, Bool.or_true]
  | false =>
    rw [setBool_false, Function.update_same, testBit_mod_256 _ _ hb, Nat.testBit_and,
      testBit_complement_mask hb hb]
    simp

/-- Locality: writing one position leaves the boolean read at every other
position unchanged (also across positions sharing a byte). -/
lemma getBool_setBool_other (data : ℕ → ℕ) (pos q : ℕ) (v : Bool) (h : q ≠ pos) :
    getBool (setBool data pos v) q = getBool data q := by
  have hi : q % 8 < 8 := Nat.mod_lt _ (by norm_num)
  have hb : pos % 8 < 8 := Nat.mod_lt _ (by norm_num)
  by_cases hbyte : q / 8 = pos / 8
  · have hbit : q % 8 ≠ pos % 8 := fun hmod => h (by omega)
    rw [getBool_eq_testBit, getBool_eq_testBit]
    cases v with
    | true =>
      rw [setBool_true, hbyte, Function.update_same, testBit_mod_256 _ _ hi,
        Nat.testBit_or, BIT_MASK_eq_two_pow hb,
        Nat.testBit_two_pow_of_ne fun hc => hbit hc.symm, Bool.or_false]
    | false =>
      rw [setBool_false, hbyte, Function.update_same, testBit_mod_256 _ _ hi,
        Nat.testBit_and, testBit_complement_mask hb hi, decide_eq_true hbit,
        Bool.and_true]
  · cases v with
    | true =>
      rw [getBool_eq_testBit, getBool_eq_testBit, setBool_true,
        Function.update_noteq hbyte]
    | false =>
      rw [getBool_eq_testBit, getBool_eq_testBit, setBool_false,
        Function.update_noteq hbyte]

/-- C9.  Bit-store round trip and locality: after `setBool(data, pos, v)`,
`getBool(data, pos)` returns `v`, and for every other position `q`,
`getBool(data, q)` is unchanged.  (Proved for all natural positions, hence
in particular for all in-bounds ones.) -/
theorem c9_setBool_getBool_roundtrip_local (data : ℕ → ℕ) (pos : ℕ) (v : Bool) :
    getBool (setBool data pos v) pos = v ∧
    ∀ q, q ≠ pos → getBool (setBool data pos v) q = getBool data q :=
  ⟨getBool_setBool_same data pos v, fun q hq => getBool_setBool_other data pos q v hq⟩

theorem c9_witness :
    ((5 : ℕ) ≠ 3 ∧ (11 : ℕ) ≠ 3) ∧
    getBool (setBool (fun _ => 0) 3 true) 3 = true ∧
    getBool (setBool (fun _ => 0) 3 true) 5 = getBool (fun _ => 0) 5 ∧
    getBool (setBool (fun _ => 255) 11 false) 11 = false ∧
    getBool (setBool (fun _ => 255) 11 false) 5 = getBool (fun _ => 255) 5 :=
  ⟨⟨by decide, by decide⟩,
    (c9_setBool_getBool_roundtrip_local (fun _ => 0) 3 true).1,
    (c9_setBool_getBool_roundtrip_local (fun _ => 0) 3 true).2 5 (by decide),
    (c9_setBool_getBool_roundtrip_local (fun _ => 255) 11 false).1,
    (c9_setBool_getBool_roundtrip_local (fun _ => 255) 11 false).2 5 (by decide)⟩

/-- Embedding of `getAvgBool(byte data[], int startPos, int endPos)`: sums
`getBool` over the half-open range `[startPos, endPos)` and returns
`(sum * 100)/(endPos - startPos)`.  The C division is undefined when the
denominator is zero, so the model returns `none` exactly when
`endPos - startPos` computes to `0` (the call pattern always has
`startPos ≤ endPos`). -/
def getAvgBool (data : ℕ → ℕ) (startPos endPos : ℕ) : Option ℕ :=
  let sum := (List.range' startPos (endPos - startPos)).countP fun x => getBool data x
  if endPos - startPos = 0 then none
  else some ((sum * 100) / (endPos - startPos))

/-- Per-target slice of the sketch's global mutable state: the bit-packed
array, the shared write cursor `currentPingNum` and the warm-up flag
`firstRun`.  The capacity `PING_MAX_COUNT` (100 in the first revision, 300
in the evolved one) is passed as a parameter `C`. -/
structure PingState where
  data : ℕ → ℕ
  currentPingNum : ℕ
  firstRun : Bool

/-- Embedding of `currentPingNumInc()`: increments the cursor; when it
reaches `PING_MAX_COUNT` (`C`), resets it to `0` and clears `firstRun`. -/
def currentPingNumInc (C : ℕ) (s : PingState) : PingState :=
  if s.currentPingNum + 1 = C then
    { s with currentPingNum := 0, firstRun := false }
  else
    { s with currentPingNum := s.currentPingNum + 1 }

/-- Embedding of the no-range overload `getAvgBool(byte data[])` (and of the
evolved revision's `getFloatAvgBool` wrapper, whose window dispatch is
identical): while `firstRun`, average `[0, currentPingNum)`, else average
the full `[0, PING_MAX_COUNT)`. -/
def getAvgBoolAll (C : ℕ) (s : PingState) : Option ℕ :=
  if s.firstRun then getAvgBool s.data 0 s.currentPingNum
  else getAvgBool s.data 0 C

/-- Logical averaging window end used by `getAvgBoolAll`'s dispatch (the
spec's `logical_window_size`). -/
def logicalWindowEnd (C : ℕ) (s : PingState) : ℕ :=
  if s.firstRun then s.currentPingNum else C

/-- Per-target slice of one `loop()` iteration's buffer bookkeeping: write
the outcome at the current cursor (`setBool(pings, currentPingNum, b)`),
then `currentPingNumInc()`. -/
def recordStep (C : ℕ) (s : PingState) (b : Bool) : PingState :=
  currentPingNumInc C { s with data := setBool s.data s.currentPingNum b }

/-- Initial state: `currentPingNum = 0`, `firstRun = true`; `setup()` zeroes
the arrays, but arbitrary initial contents are allowed here. -/
def initState (data0 : ℕ → ℕ) : PingState :=
  { data := data0, currentPingNum := 0, firstRun := true }

/-- State after recording the outcome sequence `bs`, one `loop()` iteration
per element, starting from the initial state. -/
def runRecord (C : ℕ) (data0 : ℕ → ℕ) (bs : List Bool) : PingState :=
  bs.foldl (recordStep C) (initState data0)

lemma runRecord_nil (C : ℕ) (data0 : ℕ → ℕ) :
    runRecord C data0 [] = initState data0 := rfl

lemma runRecord_append (C : ℕ) (data0 : ℕ → ℕ) (bs : List Bool) (b : Bool) :
    runRecord C data0 (bs ++ [b]) = recordStep C (runRecord C data0 bs) b := by
  simp [runRecord, List.foldl_append]

lemma currentPingNumInc_data (C : ℕ) (s : PingState) :
    (currentPingNumInc C s).data = s.data := by
  unfold currentPingNumInc
  split <;> rfl

lemma recordStep_data (C : ℕ) (s : PingState) (b : Bool) :
    (recordStep C s b).data = setBool s.data s.currentPingNum b := by
  rw [recordStep, currentPingNumInc_data]

lemma succ_mod_eq (C m : ℕ) (hC : 0 < C) :
    (m + 1) % C = if m % C + 1 = C then 0 else m % C + 1 := by
  have h1 : m % C < C := Nat.mod_lt _ hC
  have key : (m + 1) % C = (m % C + 1) % C := by
    conv_lhs => rw [← Nat.div_add_mod m C]
    rw [Nat.add_assoc, Nat.mul_add_mod]
  by_cases h : m % C + 1 = C
  · rw [if_pos h, key, h, Nat.mod_self]
  · rw [if_neg h, key, Nat.mod_eq_of_lt (by omega)]

/-- Cursor and warm-up flag after `m` recorded outcomes: the cursor is
`m % C` and `firstRun` holds exactly while `m < C`. -/
lemma runRecord_cursor (C : ℕ) (hC : 1 ≤ C) (data0 : ℕ → ℕ) (bs : List Bool) :
    (runRecord C data0 bs).currentPingNum = bs.length % C ∧
    (runRecord C data0 bs).firstRun = decide (bs.length < C) := by
  induction bs using List.reverseRecOn with
  | nil =>
    have h0 : 0 < C := hC
    simp only [runRecord_nil, initState, List.length_nil, Nat.zero_mod]
    exact ⟨trivial, by rw [decide_eq_true h0]⟩
  | append_singleton bs b ih =>
    rw [runRecord_append]
    obtain ⟨ihc, ihf⟩ := ih
    set m := bs.length with hm
    have hlen : (bs ++ [b]).length = m + 1 := by simp [hm]
    rw [recordStep]
    unfold currentPingNumInc
    by_cases h : m % C + 1 = C
    · rw [if_pos (by simpa [ihc] using h)]
      constructor
      · simp [hlen, succ_mod_eq C m hC, h]
      · have : ¬ (m + 1 < C) := by
          by_cases hmC : m < C
          · have : m % C = m := Nat.mod_eq_of_lt hmC
            omega
          · omega
        simp [hlen, this]
    · rw [if_neg (by simpa [ihc] using h)]
      constructor
      · simp [hlen, succ_mod_eq C m hC, h, ihc]
      · have hmlt : m % C < C := Nat.mod_lt _ hC
        have : (m + 1 < C) ↔ (m < C) := by
          by_cases hmC : m < C
          · have : m % C = m := Nat.mod_eq_of_lt hmC
            omega
          · omega
        simp [hlen, ihf, this]

/-- C8.  The write cursor stays in `[0, capacity)`: after every
append-and-increment step it equals the number of samples so far modulo
`C`, advances modulo `C` on each further step, and `firstRun` is cleared
exactly when the cursor completes its first lap (it holds exactly while
fewer than `C` samples have been recorded, so it is never set again
afterwards). -/
theorem c8_cursor_invariant (C : ℕ) (hC : 1 ≤ C) (data0 : ℕ → ℕ) (bs : List Bool) :
    (runRecord C data0 bs).currentPingNum = bs.length % C ∧
    (runRecord C data0 bs).currentPingNum < C ∧
    (runRecord C data0 bs).firstRun = decide (bs.length < C) ∧
    ∀ b : Bool, (runRecord C data0 (bs ++ [b])).currentPingNum =
      ((runRecord C data0 bs).currentPingNum + 1) % C := by
  obtain ⟨hc, hf⟩ := runRecord_cursor C hC data0 bs
  refine ⟨hc, ?_, hf, ?_⟩
  · rw [hc]
    exact Nat.mod_lt _ hC
  · intro b
    obtain ⟨hc', _⟩ := runRecord_cursor C hC data0 (bs ++ [b])
    rw [hc', hc]
    simp [Nat.add_mod]

theorem c8_witness :
    1 ≤ 4 ∧
    (runRecord 4 (fun _ => 0) [true, false, true, false, true]).currentPingNum = 5 % 4 ∧
    (runRecord 4 (fun _ => 0) [true, false, true, false, true]).currentPingNum < 4 ∧
    (runRecord 4 (fun _ => 0) [true, false, true, false, true]).firstRun =
      decide (5 < 4) ∧
    (runRecord 4 (fun _ => 0)
        ([true, false, true, false, true] ++ [false])).currentPingNum =
      ((runRecord 4 (fun _ => 0) [true, false, true, false, true]).currentPingNum + 1)
        % 4 :=
  ⟨by decide,
    (c8_cursor_invariant 4 (by decide) (fun _ => 0) [true, false, true, false, true]).1,
    (c8_cursor_invariant 4 (by decide) (fun _ => 0) [true, false, true, false, true]).2.1,
    (c8_cursor_invariant 4 (by decide) (fun _ => 0) [true, false, true, false, true]).2.2.1,
    (c8_cursor_invariant 4 (by decide) (fun _ => 0)
      [true, false, true, false, true]).2.2.2 false⟩

lemma getD_append_left {α : Type} (l l' : List α) (p : ℕ) (d : α) (hp : p < l.length) :
    (l ++ l').getD p d = l.getD p d := by
  induction l generalizing p with
  | nil => simp at hp
  | cons a t ih =>
    cases p with
    | zero => rfl
    | succ q =>
      simp only [List.cons_append, List.getD_cons_succ]
      exact ih q (by simpa using hp)

lemma getD_concat_self {α : Type} (l : List α) (a d : α) :
    (l ++ [a]).getD l.length d = a := by
  induction l with
  | nil => rfl
  | cons x t ih => simp [ih]

lemma getD_drop_one {α : Type} (l : List α) (j : ℕ) (d : α) :
    (l.drop 1).getD j d = l.getD (j + 1) d := by
  cases l with
  | nil => rfl
  | cons x t => rfl

/-- While the buffer has not wrapped (at most `C` samples recorded), position
`p` holds the `p`-th recorded outcome when `p` is below the number of
samples, and is untouched otherwise. -/
lemma runRecord_data_warmup (C : ℕ) (data0 : ℕ → ℕ) :
    ∀ (bs : List Bool), bs.length ≤ C → ∀ p,
      getBool (runRecord C data0 bs).data p =
        if p < bs.length then bs.getD p false else getBool data0 p := by
  intro bs
  induction bs using List.reverseRecOn with
  | nil =>
    intro _ p
    simp [runRecord_nil, initState]
  | append_singleton bs b ih =>
    intro hle p
    have hm : bs.length < C := by
      have h2 : (bs ++ [b]).length = bs.length + 1 := by simp
      omega
    have hcur : (runRecord C data0 bs).currentPingNum = bs.length := by
      rw [(runRecord_cursor C (by omega) data0 bs).1, Nat.mod_eq_of_lt hm]
    rw [runRecord_append, recordStep_data, hcur]
    rcases lt_trichotomy p bs.length with hp | hp | hp
    · rw [getBool_setBool_other _ _ _ _ (by omega), ih (by omega) p, if_pos hp,
        if_pos (by simp; omega), getD_append_left _ _ _ _ hp]
    · subst hp
      rw [getBool_setBool_same, if_pos (by simp), getD_concat_self]
    · rw [getBool_setBool_other _ _ _ _ (by omega), ih (by omega) p,
        if_neg (by omega), if_neg (by simp; omega)]

/-- The sum loop of `getAvgBool` counts exactly the `true` entries of the
recorded sequence when the read positions return the recorded values. -/
lemma countP_range_eq_count (f : ℕ → Bool) :
    ∀ (bs : List Bool), (∀ p, p < bs.length → f p = bs.getD p false) →
      (List.range bs.length).countP f = bs.count true := by
  intro bs
  induction bs using List.reverseRecOn with
  | nil => intro _; simp
  | append_singleton bs b ih =>
    intro h
    have hlen : (bs ++ [b]).length = bs.length + 1 := by simp
    rw [hlen, List.range_succ, List.countP_append, List.count_append]
    have h1 : ∀ p, p < bs.length → f p = bs.getD p false := fun p hp => by
      rw [h p (by rw [hlen]; omega), getD_append_left _ _ _ _ hp]
    have hfb : f bs.length = b := by
      rw [h bs.length (by rw [hlen]; omega), getD_concat_self]
    rw [ih h1]
    cases b <;> simp [List.countP_cons, List.count_cons, hfb]

/-- Modelled from the spec: the evolved revision's floating-point averaging
entry point `BoolBits::getFloatAvgBool` lives in the external BoolBits
library, which is not part of src/; per the spec's numeric semantics the
average is "computed as `count_true / window_size` in floating point",
modelled here exactly over ℚ (with `none` on the empty window, matching
`getAvgBool`'s divisor guard). -/
def getFloatAvgBool_model (data : ℕ → ℕ) (startPos endPos : ℕ) : Option ℚ :=
  if endPos - startPos = 0 then none
  else some
    ((((List.range' startPos (endPos - startPos)).countP fun x => getBool data x : ℕ) : ℚ)
      / ((endPos - startPos : ℕ) : ℚ))

lemma getAvgBool_eq (data : ℕ → ℕ) (startPos endPos : ℕ) :
    getAvgBool data startPos endPos =
      if endPos - startPos = 0 then none
      else some
        ((((List.range' startPos (endPos - startPos)).countP fun x => getBool data x) * 100)
          / (endPos - startPos)) := rfl

lemma runRecord_sum (C N : ℕ) (bs : List Bool) (data0 : ℕ → ℕ)
    (hlen : bs.length = N) (hNC : N ≤ C) :
    ((List.range' 0 N).countP fun x => getBool (runRecord C data0 bs).data x)
      = bs.count true := by
  subst hlen
  rw [← List.range_eq_range']
  exact countP_range_eq_count _ bs fun p hp => by
    rw [runRecord_data_warmup C data0 bs hNC p, if_pos hp]

/-- C2.  Capacity-independent exactness of the range average: for any
capacity `C`, any buffer contents before recording, and any sequence of
`N ≤ C` outcomes with `N ≥ 1`, the average over `[0, N)` counts exactly the
`true` values among those `N` samples — `(count*100)/N` for the integer
entry point of the source, and the exact fraction `count/N` for the
spec's floating-point entry point. -/
theorem c2_average_exact_fraction (C N : ℕ) (bs : List Bool) (data0 : ℕ → ℕ)
    (hlen : bs.length = N) (h1 : 1 ≤ N) (hNC : N ≤ C) :
    getAvgBool (runRecord C data0 bs).data 0 N = some ((bs.count true * 100) / N) ∧
    getFloatAvgBool_model (runRecord C data0 bs).data 0 N =
      some ((bs.count true : ℚ) / (N : ℚ)) := by
  have hsum := runRecord_sum C N bs data0 hlen hNC
  constructor
  · rw [getAvgBool_eq]
    simp only [Nat.sub_zero]
    rw [if_neg (by omega), hsum]
  · rw [getFloatAvgBool_model]
    simp only [Nat.sub_zero]
    rw [if_neg (by omega), hsum]

theorem c2_witness :
    (([true, false, false, true, false] : List Bool).length = 5 ∧ 1 ≤ 5 ∧ 5 ≤ 12) ∧
    getAvgBool (runRecord 12 (fun _ => 37) [true, false, false, true, false]).data 0 5 =
      some (([true, false, false, true, false] : List Bool).count true * 100 / 5) ∧
    getFloatAvgBool_model
        (runRecord 12 (fun _ => 37) [true, false, false, true, false]).data 0 5 =
      some ((([true, false, false, true, false] : List Bool).count true : ℚ) / (5 : ℚ)) :=
  ⟨⟨by decide, by decide, by decide⟩,
    (c2_average_exact_fraction 12 5 [true, false, false, true, false] (fun _ => 37)
      (by decide) (by decide) (by decide)).1,
    (c2_average_exact_fraction 12 5 [true, false, false, true, false] (fun _ => 37)
      (by decide) (by decide) (by decide)).2⟩

/-- C1.  Warm-up averaging policy: after at least one iteration, the window
`[0, logicalWindowEnd)` that `getAvgBool`/`getFloatAvgBool` average over
(`[0, currentPingNum)` while `firstRun`, `[0, C)` once wrapped) contains
exactly the positions that some earlier iteration wrote (the cursor value
at which that iteration's `setBool` stored its sample) — so no average
ever includes a position that was never written. -/
theorem c1_window_is_written (C : ℕ) (data0 : ℕ → ℕ) (bs : List Bool)
    (hC : 1 ≤ C) (_hm : 1 ≤ bs.length) :
    getAvgBoolAll C (runRecord C data0 bs) =
      getAvgBool (runRecord C data0 bs).data 0
        (logicalWindowEnd C (runRecord C data0 bs)) ∧
    ∀ p, p < logicalWindowEnd C (runRecord C data0 bs) ↔
      ∃ k < bs.length, (runRecord C data0 (bs.take k)).currentPingNum = p := by
  constructor
  · by_cases h : (runRecord C data0 bs).firstRun <;>
      simp [getAvgBoolAll, logicalWindowEnd, h]
  · have hwin : logicalWindowEnd C (runRecord C data0 bs) = min bs.length C := by
      obtain ⟨hc, hf⟩ := runRecord_cursor C hC data0 bs
      rw [logicalWindowEnd, hc, hf]
      by_cases h : bs.length < C
      · simp [h, Nat.mod_eq_of_lt h, Nat.min_eq_left (le_of_lt h)]
      · have hmin : min bs.length C = C := Nat.min_eq_right (by omega)
        simp [h, hmin]
    intro p
    rw [hwin]
    constructor
    · intro hp
      refine ⟨p, by omega, ?_⟩
      have htake : (bs.take p).length = p := by rw [List.length_take]; omega
      rw [(runRecord_cursor C hC data0 (bs.take p)).1, htake,
        Nat.mod_eq_of_lt (by omega)]
    · rintro ⟨k, hk, hpk⟩
      have htake : (bs.take k).length = k := by rw [List.length_take]; omega
      rw [(runRecord_cursor C hC data0 (bs.take k)).1, htake] at hpk
      have hpC : p < C := by rw [← hpk]; exact Nat.mod_lt _ hC
      by_cases hmc : bs.length ≤ C
      · have hkk : k % C = k := Nat.mod_eq_of_lt (by omega)
        omega
      · omega

theorem c1_witness :
    (1 ≤ 4 ∧ 1 ≤ ([true, false, true] : List Bool).length) ∧
    (2 < logicalWindowEnd 4 (runRecord 4 (fun _ => 0) [true, false, true]) ↔
      ∃ k < ([true, false, true] : List Bool).length,
        (runRecord 4 (fun _ => 0) (([true, false, true] : List Bool).take k)).currentPingNum
          = 2) :=
  ⟨⟨by decide, by decide⟩,
    (c1_window_is_written 4 (fun _ => 0) [true, false, true] (by decide) (by decide)).2 2⟩

/-- C3.  Wrap-around: after exactly `C` recorded values the logical window
is the full `[0, C)`, `firstRun` is cleared and the cursor is back at `0`;
the next (`C+1`-th) write stores at index `0`, overwriting the oldest
sample, and the recomputed average is over the `C`-element window holding
the new sample in place of the evicted one. -/
theorem c3_wrap_overwrites_oldest (C : ℕ) (hC : 1 ≤ C) (data0 : ℕ → ℕ)
    (hs : List Bool) (hlen : hs.length = C) (b : Bool) :
    (runRecord C data0 hs).firstRun = false ∧
    logicalWindowEnd C (runRecord C data0 hs) = C ∧
    (runRecord C data0 hs).currentPingNum = 0 ∧
    getBool (runRecord C data0 (hs ++ [b])).data 0 = b ∧
    (∀ p, 1 ≤ p → p < C →
      getBool (runRecord C data0 (hs ++ [b])).data p = hs.getD p false) ∧
    getAvgBoolAll C (runRecord C data0 (hs ++ [b])) =
      some (((b :: hs.drop 1).count true * 100) / C) := by
  obtain ⟨hc, hf⟩ := runRecord_cursor C hC data0 hs
  rw [hlen] at hc hf
  have hf0 : (runRecord C data0 hs).firstRun = false := by
    rw [hf]
    simp
  have hc0 : (runRecord C data0 hs).currentPingNum = 0 := by
    rw [hc, Nat.mod_self]
  have hdata0 : getBool (runRecord C data0 (hs ++ [b])).data 0 = b := by
    rw [runRecord_append, recordStep_data, hc0, getBool_setBool_same]
  have hdatap : ∀ p, 1 ≤ p → p < C →
      getBool (runRecord C data0 (hs ++ [b])).data p = hs.getD p false := by
    intro p h1 h2
    rw [runRecord_append, recordStep_data, hc0,
      getBool_setBool_other _ _ _ _ (by omega),
      runRecord_data_warmup C data0 hs (by omega) p, if_pos (by omega)]
  refine ⟨hf0, by rw [logicalWindowEnd, hf0]; simp, hc0, hdata0, hdatap, ?_⟩
  have hf1 : (runRecord C data0 (hs ++ [b])).firstRun = false := by
    rw [(runRecord_cursor C hC data0 (hs ++ [b])).2]
    simp [hlen]
  have hL : (b :: hs.drop 1).length = C := by
    simp [List.length_drop, hlen]
    omega
  have hcount : ((List.range' 0 C).countP
      fun x => getBool (runRecord C data0 (hs ++ [b])).data x)
      = (b :: hs.drop 1).count true := by
    rw [← List.range_eq_range']
    have hcond : ∀ p, p < (b :: hs.drop 1).length →
        getBool (runRecord C data0 (hs ++ [b])).data p
          = (b :: hs.drop 1).getD p false := by
      intro p hp
      rw [hL] at hp
      cases p with
      | zero => rw [hdata0]; rfl
      | succ j =>
        rw [hdatap (j + 1) (by omega) hp, List.getD_cons_succ, getD_drop_one]
    have h2 := countP_range_eq_count
      (fun x => getBool (runRecord C data0 (hs ++ [b])).data x) (b :: hs.drop 1) hcond
    rw [hL] at h2
    exact h2
  simp only [getAvgBoolAll, hf1, Bool.false_eq_true, if_false]
  rw [getAvgBool_eq]
  simp only [Nat.sub_zero]
  rw [if_neg (by omega), hcount]

theorem c3_witness :
    (1 ≤ 4 ∧ ([true, false, false, false] : List Bool).length = 4) ∧
    (runRecord 4 (fun _ => 0) [true, false, false, false]).currentPingNum = 0 ∧
    getBool (runRecord 4 (fun _ => 0) ([true, false, false, false] ++ [true])).data 0
      = true ∧
    getAvgBoolAll 4 (runRecord 4 (fun _ => 0) ([true, false, false, false] ++ [true]))
      = some 25 :=
  ⟨⟨by decide, by decide⟩,
    (c3_wrap_overwrites_oldest 4 (by decide) (fun _ => 0) [true, false, false, false]
      (by decide) true).2.2.1,
    (c3_wrap_overwrites_oldest 4 (by decide) (fun _ => 0) [true, false, false, false]
      (by decide) true).2.2.2.1,
    ((c3_wrap_overwrites_oldest 4 (by decide) (fun _ => 0) [true, false, false, false]
      (by decide) true).2.2.2.2.2).trans (by decide)⟩

/-- C4.  Empty-range boundary: `getAvgBool(data, 0, 0)` runs its sum loop
zero times and then evaluates `(sum * 100)/(endPos - startPos)` with a zero
denominator — an integer division by zero, undefined behavior in C, rather
than the defined "no data" outcome the spec requires.  The model returns
`none` exactly in that case; this theorem evaluates the averaging operation
at the failing input. -/
theorem c4_empty_range_divides_by_zero : getAvgBool (fun _ => 0) 0 0 = none := rfl

/-- Outcome of one ping attempt as observed by `doPing`: either the request
could not even be dispatched (`ping.asyncStart` returned false —
`SendFailed`), or the attempt completed with some `ICMPPing` status. -/
inductive ProbeOutcome where
  | sendFailed
  | completed (status : ℕ)
deriving DecidableEq

/-- Status code `SUCCESS` of the ICMPPing library (status 0). -/
def SUCCESS : ℕ := 0

/-- Embedding of the evolved revision's `doPing`: returns `false` when the
request could not be dispatched ("If we can't send the ping, clearly it is
lost"), `true` when `echoReply.status == SUCCESS`, and `false` for every
other completion status. -/
def doPing (r : ProbeOutcome) : Bool :=
  match r with
  | .sendFailed => false
  | .completed st => if st = SUCCESS then true else false

/-- Sample stored by `loop()` for a probed target:
`setBool(pings, currentPingNum, !doPing(addr, ...))`. -/
def recordedSample (r : ProbeOutcome) : Bool := !(doPing r)

/-- C5.  The sample recorded for a probe is `true` (a loss) exactly when the
probe did not complete with status `SUCCESS`; in particular a probe whose
request could not even be dispatched is recorded as a loss sample (the
total function `recordedSample` always yields a boolean — no error path). -/
theorem c5_loss_iff_not_success :
    ∀ r : ProbeOutcome,
      (recordedSample r = true ↔ r ≠ ProbeOutcome.completed SUCCESS) ∧
      recordedSample ProbeOutcome.sendFailed = true := by
  intro r
  refine ⟨?_, rfl⟩
  cases r with
  | sendFailed => simp [recordedSample, doPing]
  | completed st =>
    by_cases h : st = SUCCESS <;> simp [recordedSample, doPing, h]

/-- Timeout for one ping, from the evolved revision:
`#define ICMP_PING_TIMEOUT 950`. -/
def ICMP_PING_TIMEOUT : ℕ := 950

/-- Number of monitored addresses: `#define NUMBER_OF_IPS 3`. -/
def NUMBER_OF_IPS : ℕ := 3

/-- Overhead processing margin, from the evolved revision:
`#define PROCESSING_LOOP_TIME 150`. -/
def PROCESSING_LOOP_TIME : ℕ := 150

/-- Fixed cycle duration:
`(ICMP_PING_TIMEOUT * NUMBER_OF_IPS) + PROCESSING_LOOP_TIME`. -/
def PROCESSING_LOOP_INTERVAL : ℕ :=
  ICMP_PING_TIMEOUT * NUMBER_OF_IPS + PROCESSING_LOOP_TIME

/-- Elapsed-time computation `millis() - stime` of the wait loop: `millis()`
is a 32-bit unsigned counter, so the subtraction is modulo `2^32`. -/
def millisElapsed (stime t : ℕ) : ℕ := (t - stime) % 2 ^ 32

/-- Continuation condition of the idle-wait tail of `loop()`:
`while (millis() - stime < PROCESSING_LOOP_INTERVAL)`. -/
def idleWaitContinue (stime t : ℕ) : Bool :=
  decide (millisElapsed stime t < PROCESSING_LOOP_INTERVAL)

/-- C6.  The fixed cycle duration is `950 * 3 + 150 = 3000` ms, and the
idle-wait loop at the end of `loop()` only terminates — letting the next
cycle begin — at a time at least that duration after the cycle's start
timestamp `stime`, regardless of how quickly the probes returned (stated
for elapsed times below the 32-bit wrap of `millis()`). -/
theorem c6_cycle_duration_enforced :
    PROCESSING_LOOP_INTERVAL = 3000 ∧
    ∀ stime t : ℕ, stime ≤ t → t - stime < 2 ^ 32 →
      idleWaitContinue stime t = false → 3000 ≤ t - stime := by
  refine ⟨rfl, ?_⟩
  intro stime t _hle hwrap hexit
  have h1 : ¬ millisElapsed stime t < PROCESSING_LOOP_INTERVAL := by
    simpa [idleWaitContinue] using hexit
  rw [millisElapsed, Nat.mod_eq_of_lt hwrap] at h1
  have h2 : PROCESSING_LOOP_INTERVAL = 3000 := rfl
  omega

theorem c6_witness :
    ((0 : ℕ) ≤ 3000 ∧ (3000 : ℕ) - 0 < 2 ^ 32 ∧ idleWaitContinue 0 3000 = false) ∧
    3000 ≤ (3000 : ℕ) - 0 :=
  ⟨⟨by decide, by decide, by decide⟩,
    c6_cycle_duration_enforced.2 0 3000 (by decide) (by decide) (by decide)⟩

/-- The three monitored targets: the DHCP gateway and the two fixed
addresses (`firstPingAddr` 1.1.1.1, `secondPingAddr` 8.8.8.8). -/
inductive Target where
  | gateway
  | firstAddr
  | secondAddr
deriving DecidableEq

/-- Global mutable state of the sketch relevant to recording: the three
bit-packed arrays, the three cached loss averages, the shared write cursor
and the warm-up flag. -/
structure MonitorState where
  gatewayPings : ℕ → ℕ
  firstAddrPings : ℕ → ℕ
  secondAddrPings : ℕ → ℕ
  gatewayAvgLoss : Option ℕ
  firstAddrLoss : Option ℕ
  secondAddrLoss : Option ℕ
  currentPingNum : ℕ
  firstRun : Bool

def targetBuffer (s : MonitorState) : Target → (ℕ → ℕ)
  | .gateway => s.gatewayPings
  | .firstAddr => s.firstAddrPings
  | .secondAddr => s.secondAddrPings

def targetLoss (s : MonitorState) : Target → Option ℕ
  | .gateway => s.gatewayAvgLoss
  | .firstAddr => s.firstAddrLoss
  | .secondAddr => s.secondAddrLoss

/-- The no-range average as read from the globals (`getAvgBool(byte data[])`
dispatching on `firstRun` / `currentPingNum`). -/
def monitorAvg (C : ℕ) (s : MonitorState) (data : ℕ → ℕ) : Option ℕ :=
  if s.firstRun then getAvgBool data 0 s.currentPingNum
  else getAvgBool data 0 C

/-- Per-target record operation, the slice of one `loop()` iteration that
concerns a single target: the `setBool(<target>Pings, currentPingNum, v)`
call followed by the `<target>AvgLoss = getAvgBool(<target>Pings)`
recomputation.  (The shared cursor increment between those two statements
touches no buffer and no cached average, so it is not part of the
per-target slice.) -/
def recordOutcome (C : ℕ) (s : MonitorState) (t : Target) (v : Bool) : MonitorState :=
  match t with
  | .gateway =>
    let s1 := { s with gatewayPings := setBool s.gatewayPings s.currentPingNum v }
    { s1 with gatewayAvgLoss := monitorAvg C s1 s1.gatewayPings }
  | .firstAddr =>
    let s1 := { s with firstAddrPings := setBool s.firstAddrPings s.currentPingNum v }
    { s1 with firstAddrLoss := monitorAvg C s1 s1.firstAddrPings }
  | .secondAddr =>
    let s1 := { s with secondAddrPings := setBool s.secondAddrPings s.currentPingNum v }
    { s1 with secondAddrLoss := monitorAvg C s1 s1.secondAddrPings }

/-- C7.  Frame property of recording: recording an outcome for one target
mutates only that target's buffer and that target's cached loss average;
for every other target, every bit of its buffer and its cached average are
unchanged. -/
theorem c7_record_frame (C : ℕ) (s : MonitorState) (t t' : Target) (v : Bool)
    (h : t' ≠ t) :
    (∀ q, getBool (targetBuffer (recordOutcome C s t v) t') q
        = getBool (targetBuffer s t') q) ∧
    targetLoss (recordOutcome C s t v) t' = targetLoss s t' := by
  cases t <;> cases t' <;>
    first
      | exact absurd rfl h
      | exact ⟨fun q => rfl, rfl⟩

/-- Initial monitor state: `setup()` zeroes the three arrays; the loss
variables are initialised to 0 and the cursor state to (0, first run). -/
def initMonitorState : MonitorState :=
  { gatewayPings := fun _ => 0
    firstAddrPings := fun _ => 0
    secondAddrPings := fun _ => 0
    gatewayAvgLoss := some 0
    firstAddrLoss := some 0
    secondAddrLoss := some 0
    currentPingNum := 0
    firstRun := true }

theorem c7_witness :
    (Target.secondAddr ≠ Target.gateway) ∧
    getBool (targetBuffer (recordOutcome 100 initMonitorState Target.gateway true)
        Target.secondAddr) 7
      = getBool (targetBuffer initMonitorState Target.secondAddr) 7 ∧
    targetLoss (recordOutcome 100 initMonitorState Target.gateway true)
        Target.secondAddr
      = targetLoss initMonitorState Target.secondAddr :=
  ⟨by decide,
    (c7_record_frame 100 initMonitorState Target.gateway Target.secondAddr true
      (by decide)).1 7,
    (c7_record_frame 100 initMonitorState Target.gateway Target.secondAddr true
      (by decide)).2⟩

/-- Capacity of the first revision: `#define PING_MAX_COUNT 100`. -/
def PING_MAX_COUNT : ℕ := 100

/-- Backing array size:
`#define PING_BYTE_MAX ( (int) ((PING_MAX_COUNT/8.0)+0.5) )`.  The double
arithmetic is exact at this capacity (dividing by `8.0 = 2^3` and adding
`0.5` stay on exactly representable values), so the real-valued model over
ℚ coincides with the C computation; the cast truncates toward zero, which
on this non-negative value is the floor. -/
def PING_BYTE_MAX : ℕ := (Int.floor ((PING_MAX_COUNT : ℚ) / 8 + 1 / 2)).toNat

/-- C10.  Storage sizing safety at the configured capacity: the sizing
expression rounds 100/8 to 13 bytes, every position below
`PING_MAX_COUNT = 100` maps to byte index `pos/8 < PING_BYTE_MAX`, and
every access made through the main loop's call pattern (always at the
current cursor) stays within the arrays' bounds. -/
theorem c10_storage_bounds :
    PING_BYTE_MAX = 13 ∧
    (∀ pos, pos < PING_MAX_COUNT → pos / 8 < PING_BYTE_MAX) ∧
    ∀ (data0 : ℕ → ℕ) (bs : List Bool),
      (runRecord PING_MAX_COUNT data0 bs).currentPingNum / 8 < PING_BYTE_MAX := by
  have h13 : PING_BYTE_MAX = 13 := by
    rw [PING_BYTE_MAX]
    norm_num [PING_MAX_COUNT]
    decide
  refine ⟨h13, fun pos hp => ?_, fun data0 bs => ?_⟩
  · rw [h13]
    have : pos < 100 := hp
    omega
  · rw [h13]
    have hcur := (runRecord_cursor PING_MAX_COUNT (by decide) data0 bs).1
    have hlt : (runRecord PING_MAX_COUNT data0 bs).currentPingNum < 100 := by
      rw [hcur]
      exact Nat.mod_lt _ (by decide)
    omega

theorem c10_witness :
    ((99 : ℕ) < PING_MAX_COUNT) ∧ (99 : ℕ) / 8 < PING_BYTE_MAX ∧
    (runRecord PING_MAX_COUNT (fun _ => 0) [true, false]).currentPingNum / 8
      < PING_BYTE_MAX :=
  ⟨by decide,
    c10_storage_bounds.2.1 99 (by decide),
    c10_storage_bounds.2.2 (fun _ => 0) [true, false]⟩

end PingMonitor
